import Mathlib

/-!
# watchrun: step parser, pipeline execution and cancellation, reaction loop

A shallow embedding of `main.go`.

* `ParseArgs` is the step parser.  Go slices are lists; an index or slice
  expression that Go would abort on (index out of range, slice bounds out of
  range) makes the embedded function return `none`.
* `Pipeline.runStep` / `Pipeline.Kill` are the two parties that touch a
  `Pipeline`.  Each section of `Pipeline.Run` that executes between
  `pipe.mu.Lock()` and `pipe.mu.Unlock()` is one atomic transition, and so is
  the whole body of `Pipeline.Kill`.  Outcomes of the operating system
  (`Start` succeeds or not, `Wait` reports success or not) are read from an
  oracle `Env`.  Everything written to standard output and every request made
  to the operating system is appended to a log of `Event`s.
* `System` is the reaction loop of `main` together with every pipeline it has
  allocated.
-/

namespace Watchrun

/-! ## Data model -/

/-- Go `type Process struct { Cmd string; Args []string }`. -/
structure Process where
  Cmd : String
  Args : List String
deriving DecidableEq, Repr

/-- Go `func (proc *Process) String() string`:
`proc.Cmd + " " + strings.Join(proc.Args, " ")`. -/
def Process.String (proc : Process) : String :=
  proc.Cmd ++ " " ++ " ".intercalate proc.Args

/-! ## Step parser -/

/-- The reserved delimiter token. -/
def delim : String := ";;"

/-- Go index expression `args[i]`; `none` when Go reports index out of range. -/
def goIndex (args : List String) (i : Nat) : Option String :=
  args.get? i

/-- Go slice expression `args[lo:hi]` for `hi ≤ len(args)`; `none` when Go
reports slice bounds out of range (`lo > hi`, or `hi` beyond the slice). -/
def goSlice (args : List String) (lo hi : Nat) : Option (List String) :=
  if lo ≤ hi ∧ hi ≤ args.length then some ((args.drop lo).take (hi - lo)) else none

/-- The body of `for i, arg := range args` in `ParseArgs`, iterated over the
tokens not yet visited.  `i` is the index of the next token, `start` and
`procs` are the local variables of the same names. -/
def parseLoop (args : List String) :
    Nat → List String → Nat → List Process → Option (Nat × List Process)
  | _, [], start, procs => some (start, procs)
  | i, arg :: rest, start, procs =>
    if arg = delim then
      match goIndex args start, goSlice args (start + 1) i with
      | some cmd, some as =>
        parseLoop args (i + 1) rest (i + 1) (procs ++ [{ Cmd := cmd, Args := as }])
      | _, _ => none
    else
      parseLoop args (i + 1) rest start procs

/-- The statement `if start < len(args) { ... }` that follows the loop in
`ParseArgs`; `args[start+1:]` is `args[start+1:len(args)]`. -/
def parseTail (args : List String) (start : Nat) (procs : List Process) :
    Option (List Process) :=
  if start < args.length then
    match goIndex args start, goSlice args (start + 1) args.length with
    | some cmd, some as => some (procs ++ [{ Cmd := cmd, Args := as }])
    | _, _ => none
  else
    some procs

/-- Go `func ParseArgs(args []string) (procs []Process)`. -/
def ParseArgs (args : List String) : Option (List Process) :=
  match parseLoop args 0 args 0 [] with
  | none => none
  | some (start, procs) => parseTail args start procs

/-- Stated from the specification: the groups of a token list, that is the
pieces between delimiters. -/
def tokenGroups (args : List String) : List (List String) :=
  args.splitOn delim

/-- Stated from the specification: the maximal runs of non-delimiter tokens. -/
def tokenRuns (args : List String) : List (List String) :=
  (tokenGroups args).filter (fun g => !g.isEmpty)

/-- Stated from the specification: the first token of a group is the command,
the remainder are its arguments. -/
def stepOfRun : List String → Process
  | [] => { Cmd := "", Args := [] }
  | cmd :: as => { Cmd := cmd, Args := as }

/-- No group is empty: the first token is not the delimiter and no delimiter
directly follows another delimiter. -/
def NoEmptyGroup (args : List String) : Prop :=
  args.head? ≠ some delim ∧
    ∀ i, i < args.length → args.get? i = some delim → args.get? (i + 1) ≠ some delim

instance (args : List String) : Decidable (NoEmptyGroup args) :=
  inferInstanceAs (Decidable (_ ∧ _))

/-! ## Pipeline -/

/-- Go `*exec.Cmd` as far as this program uses it.  `step` is the index of the
loop iteration of `Pipeline.Run` that built the command, `spec` is what it was
built from, and `Process` tells whether the field `cmd.Process` is non-nil,
which `exec.Cmd.Start` makes it exactly when it succeeds. -/
structure Cmd where
  step : Nat
  spec : Process
  Process : Bool
deriving DecidableEq, Repr

/-- What a pipeline writes to standard output, asks of the operating system,
or observes from it. -/
inductive Event where
  /-- The notice `<<  run: text >>` printed in iteration `i`. -/
  | run (i : Nat) (text : String)
  /-- The operating system created the child process of step `i`. -/
  | osStart (i : Nat)
  /-- The notice `<< fail: err >>` printed in iteration `i`. -/
  | fail (i : Nat)
  /-- Call `cmd.Wait()` of step `i` returned; `ok` iff it returned no error. -/
  | exited (i : Nat) (ok : Bool)
  /-- The notice `<< done: text elapsed >>` printed in iteration `i`. -/
  | done (i : Nat) (text : String)
  /-- The notice `<< kill: text >>`. -/
  | kill (text : String)
  /-- The call `Process.Kill()` on the child process of step `i`. -/
  | osKill (i : Nat)
deriving DecidableEq, Repr

/-- Where the goroutine executing `Pipeline.Run` stands.  It is only ever
observed outside the sections guarded by `pipe.mu`. -/
inductive PC where
  /-- At the head of iteration `i` of the `range` loop, before `Lock`. -/
  | loop (i : Nat)
  /-- `Start` failed in iteration `i`; the lock is released and the failure
  notice is not printed yet. -/
  | failed (i : Nat)
  /-- Blocked in `cmd.Wait()` of iteration `i` over `proc`. -/
  | waiting (i : Nat) (proc : Process)
  /-- `cmd.Wait()` of iteration `i` returned no error; the notice of
  completion is not printed yet. -/
  | exitedOk (i : Nat) (proc : Process)
  /-- The method `Run` has returned. -/
  | returned
deriving DecidableEq, Repr

/-- Go `type Pipeline struct`, together with the program counter of the
goroutine executing `Run` and the log of events. -/
structure Pipeline where
  Processes : List Process
  proc : Process
  active : Option Cmd
  killed : Bool
  pc : PC
  log : List Event
deriving DecidableEq, Repr

/-- The outcomes decided by the operating system: whether `Start` of step `i`
succeeds and whether `Wait` of step `i` returns no error. -/
structure Env where
  startOk : Nat → Bool
  exitOk : Nat → Bool

/-- Go `&Pipeline{Processes: procs}`: every other field has its zero value. -/
def Pipeline.new (procs : List Process) : Pipeline :=
  { Processes := procs, proc := { Cmd := "", Args := [] }, active := none,
    killed := false, pc := PC.loop 0, log := [] }

/-- Lines 49 to 53 of `Pipeline.Run`, under the lock: record the current step,
publish the command built by `exec.Command` (not started yet) and print the
notice. -/
def Pipeline.publish (i : Nat) (proc : Process) (pipe : Pipeline) : Pipeline :=
  { pipe with
    proc := proc
    active := some { step := i, spec := proc, Process := false }
    log := pipe.log ++ [Event.run i proc.String] }

/-- Lines 56 to 65 of `Pipeline.Run`, under the lock: `pipe.active.Start()`
and the two ways out of the guarded section.  The command is the one
`Pipeline.publish` has just stored, so the first case never occurs in
`Pipeline.runStep`. -/
def Pipeline.start (env : Env) (i : Nat) (proc : Process) (pipe : Pipeline) : Pipeline :=
  match pipe.active with
  | none => pipe
  | some cmd =>
    if env.startOk i then
      { pipe with
        active := some { cmd with Process := true }
        log := pipe.log ++ [Event.osStart i]
        pc := PC.waiting i proc }
    else
      { pipe with active := none, killed := true, pc := PC.failed i }

/-- One transition of the goroutine executing `Pipeline.Run`. -/
def Pipeline.runStep (env : Env) (pipe : Pipeline) : Pipeline :=
  match pipe.pc with
  | PC.loop i =>
    match pipe.Processes.get? i with
    | none => { pipe with pc := PC.returned }
    | some proc =>
      if pipe.killed then { pipe with pc := PC.returned }
      else Pipeline.start env i proc (Pipeline.publish i proc pipe)
  | PC.failed i =>
    { pipe with log := pipe.log ++ [Event.fail i], pc := PC.returned }
  | PC.waiting i proc =>
    if env.exitOk i then
      { pipe with log := pipe.log ++ [Event.exited i true], pc := PC.exitedOk i proc }
    else
      { pipe with log := pipe.log ++ [Event.exited i false], pc := PC.returned }
  | PC.exitedOk i proc =>
    { pipe with log := pipe.log ++ [Event.done i proc.String], pc := PC.loop (i + 1) }
  | PC.returned => pipe

/-- Go `func (pipe *Pipeline) Kill()`, one atomic transition.  The result is
`none` when `pipe.active.Process.Kill()` dereferences a nil `Process`. -/
def Pipeline.Kill (pipe : Pipeline) : Option Pipeline :=
  match pipe.active with
  | some cmd =>
    if cmd.Process then
      some { pipe with
        log := pipe.log ++ [Event.kill pipe.proc.String, Event.osKill cmd.step]
        active := none
        killed := true }
    else none
  | none => some { pipe with killed := true }

/-- Go `func (pipe *Pipeline) Run()` when nothing else touches the pipeline:
the goroutine takes its transitions one after the other.  An iteration of the
loop takes at most three transitions and leaving the loop takes one. -/
def Pipeline.Run (env : Env) (pipe : Pipeline) : Pipeline :=
  (Pipeline.runStep env)^[3 * pipe.Processes.length + 1] pipe

/-- Who moves next on a pipeline: the goroutine executing `Run`, or a caller
of `Kill`. -/
inductive Action where
  | run
  | kill
deriving DecidableEq, Repr

/-- One transition of a pipeline; `none` when the transition aborts. -/
def Pipeline.step (env : Env) (pipe : Pipeline) : Action → Option Pipeline
  | Action.run => some (Pipeline.runStep env pipe)
  | Action.kill => Pipeline.Kill pipe

/-- An interleaving of `Run` and calls of `Kill`, from left to right. -/
def Pipeline.exec (env : Env) : List Action → Pipeline → Option Pipeline
  | [], pipe => some pipe
  | a :: as, pipe =>
    match Pipeline.step env pipe a with
    | none => none
    | some pipe' => Pipeline.exec env as pipe'

/-- The events by which a step gets started: the notice that it runs and the
creation of its process. -/
def Event.isStart : Event → Bool
  | Event.run _ _ => true
  | Event.osStart _ => true
  | _ => false

/-- The events of iteration `i` over `proc` when the process starts and exits
successfully. -/
def iterationOk (i : Nat) (proc : Process) : List Event :=
  [Event.run i proc.String, Event.osStart i, Event.exited i true, Event.done i proc.String]

/-- The events of iteration `i` over `proc` when the process starts and exits
with a failure indication. -/
def iterationExitFail (i : Nat) (proc : Process) : List Event :=
  [Event.run i proc.String, Event.osStart i, Event.exited i false]

/-- The zero value of `Process`. -/
def Process.zero : Process := { Cmd := "", Args := [] }

/-- The events of a run without `Kill` in which every process starts, the
steps before `k` exit successfully and step `k`, if there is one, does not. -/
def expectedLog (procs : List Process) (k : Nat) : List Event :=
  (List.range k).flatMap (fun i => iterationOk i (procs.getD i Process.zero)) ++
    (if k < procs.length then iterationExitFail k (procs.getD k Process.zero) else [])

/-! ## Reaction loop -/

/-- What the reaction loop of `main` does, in program order. -/
inductive MainOp where
  /-- The call `pipe.Kill()` on the pipeline number `id`. -/
  | kill (id : Nat)
  /-- The line with the current time. -/
  | stamp
  /-- The call `Run(procs)`: pipeline number `id` is allocated over `procs`
  and `go pipe.Run()` is issued. -/
  | spawn (id : Nat) (procs : List Process)
deriving DecidableEq, Repr

/-- The reaction loop and every pipeline allocated so far.  `pipe` is the
variable `pipe` of `main` (`none` for nil), as an index into `pipes`. -/
structure System where
  procs : List Process
  pipes : List Pipeline
  pipe : Option Nat
  ops : List MainOp
deriving DecidableEq, Repr

/-- The state of `main` on entering the reaction loop. -/
def System.init (procs : List Process) : System :=
  { procs := procs, pipes := [], pipe := none, ops := [] }

/-- Go `func Run(procs []Process) *Pipeline` called from the loop, after the
line with the current time. -/
def System.spawn (sys : System) : System :=
  { sys with
    pipes := sys.pipes ++ [Pipeline.new sys.procs]
    pipe := some sys.pipes.length
    ops := sys.ops ++ [MainOp.stamp, MainOp.spawn sys.pipes.length sys.procs] }

/-- One iteration of `for range changes` in `main`; `none` when `Kill`
aborts.  The iteration touches the previous pipeline only through `Kill`,
which is atomic under that pipeline's lock, and the new pipeline cannot move
before it exists, so the transitions other goroutines take between the
statements of one iteration commute with them and the iteration is taken as
one transition. -/
def System.onChange (sys : System) : Option System :=
  match sys.pipe with
  | none => some sys.spawn
  | some id =>
    match sys.pipes.get? id with
    | none => none
    | some p =>
      match Pipeline.Kill p with
      | none => none
      | some p' =>
        some (System.spawn { sys with pipes := sys.pipes.set id p', ops := sys.ops ++ [MainOp.kill id] })

/-- Who moves next in the whole program: the reaction loop receives a change
notification, or the goroutine of pipeline `id` takes a transition. -/
inductive SysAction where
  | change
  | run (id : Nat)
deriving DecidableEq, Repr

/-- One transition of the whole program.  `envs id` are the outcomes the
operating system decides for pipeline `id`. -/
def System.step (envs : Nat → Env) (sys : System) : SysAction → Option System
  | SysAction.change => sys.onChange
  | SysAction.run id =>
    match sys.pipes.get? id with
    | none => some sys
    | some p => some { sys with pipes := sys.pipes.set id (Pipeline.runStep (envs id) p) }

/-- A schedule of the whole program, from left to right. -/
def System.exec (envs : Nat → Env) : List SysAction → System → Option System
  | [], sys => some sys
  | a :: as, sys =>
    match System.step envs sys a with
    | none => none
    | some sys' => System.exec envs as sys'

/-- What the reaction loop does for the notification number `i`. -/
def reaction (procs : List Process) (i : Nat) : List MainOp :=
  (if i = 0 then [] else [MainOp.kill (i - 1)]) ++ [MainOp.stamp, MainOp.spawn i procs]

/-- The outcomes of the scenario `true ;; exit 1 ;; true`. -/
def scenarioEnv : Env :=
  { startOk := fun _ => true, exitOk := fun i => decide (i ≠ 1) }

/-- The pipeline `true ;; exit 1 ;; true`. -/
def scenarioProcs : List Process :=
  [{ Cmd := "true", Args := [] }, { Cmd := "exit", Args := ["1"] }, { Cmd := "true", Args := [] }]

/-- Every start and every wait succeeds. -/
def allOk : Env := { startOk := fun _ => true, exitOk := fun _ => true }

/-- No process can be started. -/
def noStart : Env := { startOk := fun _ => false, exitOk := fun _ => true }

/-- Every published command has been started: its `Process` is non-nil and
the creation of its process is in the log, and it is the command of the
current step. -/
def Pipeline.Started (pipe : Pipeline) : Prop :=
  ∀ cmd, pipe.active = some cmd →
    cmd.Process = true ∧ Event.osStart cmd.step ∈ pipe.log ∧ cmd.spec = pipe.proc ∧
      pipe.Processes.get? cmd.step = some cmd.spec

/-- The pipeline `sleep 9 ;; true` once the goroutine of `Run` has started
the first step and waits for it. -/
def sleeping : Pipeline :=
  Pipeline.runStep allOk (Pipeline.new [{ Cmd := "sleep", Args := ["9"] }, { Cmd := "true", Args := [] }])

/-- The pipeline over the single step `true` after `Run` has returned. -/
def finished : Pipeline :=
  Pipeline.Run allOk (Pipeline.new [{ Cmd := "true", Args := [] }])

/-- Whether an operation of the reaction loop is a call of `Kill`. -/
def MainOp.isKill : MainOp → Bool
  | MainOp.kill _ => true
  | _ => false

/-- Whether an operation of the reaction loop is a call of `Run(procs)`. -/
def MainOp.isSpawn : MainOp → Bool
  | MainOp.spawn _ _ => true
  | _ => false

/-- What holds of the whole program after `n` change notifications: `n`
pipelines have been allocated, all over `procs`, the variable `pipe` refers to
the last of them, their published commands have been started, and the
reaction loop has done its `n` reactions in order. -/
def System.After (procs : List Process) (n : Nat) (sys : System) : Prop :=
  sys.procs = procs ∧ sys.pipes.length = n ∧
    sys.pipe = (if n = 0 then none else some (n - 1)) ∧
    (∀ p ∈ sys.pipes, p.Started ∧ p.Processes = procs) ∧
    sys.ops = (List.range n).flatMap (reaction procs)

/-! ## The step parser on token lists without an empty group -/

theorem goIndex_mid (pre cs rest : List String) (c : String) :
    goIndex (pre ++ (c :: cs) ++ rest) pre.length = some c := by
  induction pre with
  | nil => simp [goIndex]
  | cons p pre ih => simpa [goIndex] using ih

theorem goSlice_mid (pre cs rest : List String) (c : String) :
    goSlice (pre ++ (c :: cs) ++ rest) (pre.length + 1) (pre.length + (c :: cs).length)
      = some cs := by
  have h1 : pre.length + 1 ≤ pre.length + (c :: cs).length := by simp
  have h2 : pre.length + (c :: cs).length ≤ (pre ++ (c :: cs) ++ rest).length := by
    simp
  have h3 : List.drop (pre.length + 1) (pre ++ (c :: cs) ++ rest) = cs ++ rest := by
    rw [List.append_assoc, ← List.drop_drop, List.drop_left]; rfl
  have h4 : pre.length + (c :: cs).length - (pre.length + 1) = cs.length := by
    simp only [List.length_cons]; omega
  rw [goSlice, if_pos ⟨h1, h2⟩, h3, h4, List.take_left]

theorem tokenRuns_single (cur : List String) (hcur : ∀ x ∈ cur, x ≠ delim) :
    tokenRuns cur = if cur = [] then [] else [cur] := by
  have h : tokenGroups cur = [cur] := by
    unfold tokenGroups List.splitOn
    exact List.splitOnP_eq_single _ _ (by simpa using hcur)
  rw [tokenRuns, h]
  cases cur <;> simp

theorem tokenRuns_first (c : String) (cs rest : List String)
    (hcur : ∀ x ∈ c :: cs, x ≠ delim) :
    tokenRuns ((c :: cs) ++ delim :: rest) = (c :: cs) :: tokenRuns rest := by
  have h : tokenGroups ((c :: cs) ++ delim :: rest) = (c :: cs) :: tokenGroups rest := by
    unfold tokenGroups List.splitOn
    exact List.splitOnP_first _ _ (by simpa using hcur) delim (by simp) rest
  rw [tokenRuns, h]
  simp [tokenRuns]

theorem parseLoop_runs (args : List String) :
    ∀ (rest pre cur : List String) (procs : List Process),
      args = pre ++ cur ++ rest →
      (∀ x ∈ cur, x ≠ delim) →
      (cur = [] → rest.head? ≠ some delim) →
      (∀ i, i < rest.length → rest.get? i = some delim → rest.get? (i + 1) ≠ some delim) →
      (match parseLoop args (pre.length + cur.length) rest pre.length procs with
        | none => none
        | some (start, ps) => parseTail args start ps)
        = some (procs ++ (tokenRuns (cur ++ rest)).map stepOfRun) := by
  intro rest
  induction rest with
  | nil =>
    intro pre cur procs hargs hcur _ _
    simp only [parseLoop, List.append_nil]
    rw [tokenRuns_single cur hcur]
    cases cur with
    | nil => simp [parseTail, hargs]
    | cons c cs =>
      have hi := goIndex_mid pre cs [] c
      have hs := goSlice_mid pre cs [] c
      rw [← hargs] at hi hs
      have hlen : args.length = pre.length + (c :: cs).length := by simp [hargs]
      have hlt : pre.length < args.length := by rw [hlen]; simp
      rw [← hlen] at hs
      simp [parseTail, hlt, hi, hs, stepOfRun]
  | cons t rest ih =>
    intro pre cur procs hargs hcur hhead hchain
    by_cases ht : t = delim
    · subst ht
      cases cur with
      | nil => exact absurd rfl (hhead rfl)
      | cons c cs =>
        have hi := goIndex_mid pre cs (delim :: rest) c
        have hs := goSlice_mid pre cs (delim :: rest) c
        rw [← hargs] at hi hs
        have h := ih (pre ++ (c :: cs) ++ [delim]) [] (procs ++ [⟨c, cs⟩])
          (by simp [hargs]) (by simp)
          (fun _ => by
            have := hchain 0 (by simp) (by simp)
            cases rest <;> simp_all)
          (fun j hj hd => by
            have := hchain (j + 1) (by simpa using hj) (by simpa using hd)
            simpa using this)
        have hl : (pre ++ (c :: cs) ++ [delim]).length + ([] : List String).length
            = pre.length + (c :: cs).length + 1 := by simp; omega
        have hl2 : (pre ++ (c :: cs) ++ [delim]).length
            = pre.length + (c :: cs).length + 1 := by simp; omega
        rw [hl, hl2] at h
        simp only [parseLoop, if_true, hi, hs]
        rw [h, tokenRuns_first c cs rest hcur]
        simp [stepOfRun]
    · have h := ih pre (cur ++ [t]) procs (by simp [hargs])
        (by
          intro x hx
          rcases List.mem_append.mp hx with hx | hx
          · exact hcur x hx
          · simp at hx; subst hx; exact ht)
        (by simp)
        (fun j hj hd => by
          have := hchain (j + 1) (by simpa using hj) (by simpa using hd)
          simpa using this)
      have hl : pre.length + (cur ++ [t]).length = pre.length + cur.length + 1 := by
        simp; omega
      rw [hl] at h
      simp only [parseLoop, if_neg ht]
      rw [h]
      simp

theorem ParseArgs_eq_runs (args : List String) (h : NoEmptyGroup args) :
    ParseArgs args = some ((tokenRuns args).map stepOfRun) := by
  have := parseLoop_runs args args [] [] [] (by simp) (by simp) (fun _ => h.1) h.2
  simpa [ParseArgs] using this

/-- C3.  On a token list without an empty group `ParseArgs` returns, in input
order, one step per maximal run of non-delimiter tokens: the command is the
first token of the run and the arguments are the rest of it.  The empty list
gives no step and `echo hi ;; echo bye` gives the steps `echo hi` and
`echo bye`. -/
theorem ParseArgs_runs (args : List String) (h : NoEmptyGroup args) :
    ParseArgs args = some ((tokenRuns args).map stepOfRun) ∧
    ParseArgs [] = some [] ∧
    ParseArgs ["echo", "hi", ";;", "echo", "bye"] =
      some [{ Cmd := "echo", Args := ["hi"] }, { Cmd := "echo", Args := ["bye"] }] :=
  ⟨ParseArgs_eq_runs args h, by decide, by decide⟩

theorem ParseArgs_runs_witness :
    NoEmptyGroup ["make", ";;", "go", "test", "./...", ";;"] ∧
    ParseArgs ["make", ";;", "go", "test", "./...", ";;"] =
      some ((tokenRuns ["make", ";;", "go", "test", "./...", ";;"]).map stepOfRun) :=
  ⟨by decide, (ParseArgs_runs ["make", ";;", "go", "test", "./...", ";;"] (by decide)).1⟩

theorem tokenRuns_length (rest : List String) :
    ∀ cur : List String, (∀ x ∈ cur, x ≠ delim) →
      (cur = [] → rest.head? ≠ some delim) →
      (∀ i, i < rest.length → rest.get? i = some delim → rest.get? (i + 1) ≠ some delim) →
      (tokenRuns (cur ++ rest)).length =
        rest.count delim +
          (if cur ++ rest = [] ∨ (cur ++ rest).getLast? = some delim then 0 else 1) := by
  induction rest with
  | nil =>
    intro cur hcur _ _
    rw [List.append_nil, tokenRuns_single cur hcur]
    by_cases hc : cur = []
    · simp [hc]
    · have hlast : cur.getLast? ≠ some delim := by
        intro hl
        exact hcur delim (List.mem_of_getLast?_eq_some hl) rfl
      simp [hc, hlast]
  | cons t rest ih =>
    intro cur hcur hhead hchain
    by_cases ht : t = delim
    · subst ht
      cases cur with
      | nil => exact absurd rfl (hhead rfl)
      | cons c cs =>
        have h := ih [] (by simp)
          (fun _ => by
            have := hchain 0 (by simp) (by simp)
            cases rest <;> simp_all)
          (fun j hj hd => by
            have := hchain (j + 1) (by simpa using hj) (by simpa using hd)
            simpa using this)
        rw [List.nil_append] at h
        rw [tokenRuns_first c cs rest hcur, List.length_cons, h]
        cases rest with
        | nil =>
          have hl : (c :: cs ++ [delim]).getLast? = some delim := by
            rw [List.getLast?_append]; rfl
          rw [hl]
          simp
        | cons r rs =>
          have hl : (c :: cs ++ delim :: r :: rs).getLast? = (r :: rs).getLast? := by
            rw [List.getLast?_append, List.getLast?_cons_cons]
            cases hr : (r :: rs).getLast? with
            | none => simp at hr
            | some x => rfl
          rw [hl]
          simp
          omega
    · have h := ih (cur ++ [t])
        (by
          intro x hx
          rcases List.mem_append.mp hx with hx | hx
          · exact hcur x hx
          · simp at hx; subst hx; exact ht)
        (by simp)
        (fun j hj hd => by
          have := hchain (j + 1) (by simpa using hj) (by simpa using hd)
          simpa using this)
      have happ : cur ++ [t] ++ rest = cur ++ t :: rest := by simp
      rw [happ] at h
      rw [h, List.count_cons_of_ne (Ne.symm ht)]

/-- On a token list without an empty group that contains the delimiter,
`ParseArgs` returns one step more than there are delimiters when the list does
not end with a delimiter, and as many steps as delimiters when it does. -/
theorem ParseArgs_count (args : List String) (h : NoEmptyGroup args) (hd : delim ∈ args) :
    ∃ procs, ParseArgs args = some procs ∧
      procs.length = args.count delim + (if args.getLast? = some delim then 0 else 1) := by
  refine ⟨_, ParseArgs_eq_runs args h, ?_⟩
  have hne : args ≠ [] := List.ne_nil_of_mem hd
  have := tokenRuns_length args [] (by simp) (fun _ => h.1) h.2
  simp only [List.nil_append] at this
  simp [this, hne]

/-! ## The step parser on token lists with an empty group -/

theorem goSlice_empty_group (args : List String) (start : Nat) :
    goSlice args (start + 1) start = none := by
  simp [goSlice]

theorem parseLoop_aborts (args : List String) :
    ∀ (rest pre cur : List String) (procs : List Process),
      args = pre ++ cur ++ rest →
      (∀ x ∈ cur, x ≠ delim) →
      ((cur = [] ∧ rest.head? = some delim) ∨
        ∃ i, i < rest.length ∧ rest.get? i = some delim ∧ rest.get? (i + 1) = some delim) →
      parseLoop args (pre.length + cur.length) rest pre.length procs = none := by
  intro rest
  induction rest with
  | nil =>
    intro pre cur procs _ _ h
    rcases h with ⟨_, h⟩ | ⟨i, hi, _⟩
    · simp at h
    · simp at hi
  | cons t rest ih =>
    intro pre cur procs hargs hcur h
    by_cases ht : t = delim
    · subst ht
      cases cur with
      | nil =>
        simp only [parseLoop, if_true, List.length_nil, Nat.add_zero, goSlice_empty_group]
        split <;> simp_all
      | cons c cs =>
        have hi := goIndex_mid pre cs (delim :: rest) c
        have hs := goSlice_mid pre cs (delim :: rest) c
        rw [← hargs] at hi hs
        have h' : (([] : List String) = [] ∧ rest.head? = some delim) ∨
            ∃ i, i < rest.length ∧ rest.get? i = some delim ∧
              rest.get? (i + 1) = some delim := by
          rcases h with ⟨hc, _⟩ | ⟨i, hi', h1, h2⟩
          · simp at hc
          · cases i with
            | zero =>
              left
              refine ⟨rfl, ?_⟩
              cases rest <;> simp_all
            | succ j =>
              right
              exact ⟨j, by simpa using hi', by simpa using h1, by simpa using h2⟩
        have hrec := ih (pre ++ (c :: cs) ++ [delim]) [] (procs ++ [⟨c, cs⟩])
          (by simp [hargs]) (by simp) h'
        have hl : (pre ++ (c :: cs) ++ [delim]).length + ([] : List String).length
            = pre.length + (c :: cs).length + 1 := by simp; omega
        have hl2 : (pre ++ (c :: cs) ++ [delim]).length
            = pre.length + (c :: cs).length + 1 := by simp; omega
        rw [hl, hl2] at hrec
        simp only [parseLoop, if_true, hi, hs]
        exact hrec
    · have h' : ((cur ++ [t] = [] ∧ rest.head? = some delim) ∨
          ∃ i, i < rest.length ∧ rest.get? i = some delim ∧
            rest.get? (i + 1) = some delim) := by
        rcases h with ⟨_, hh⟩ | ⟨i, hi', h1, h2⟩
        · simp at hh
          exact absurd hh ht
        · cases i with
          | zero =>
            simp at h1
            exact absurd h1 ht
          | succ j =>
            right
            exact ⟨j, by simpa using hi', by simpa using h1, by simpa using h2⟩
      have hrec := ih pre (cur ++ [t]) procs (by simp [hargs])
        (by
          intro x hx
          rcases List.mem_append.mp hx with hx | hx
          · exact hcur x hx
          · simp at hx; subst hx; exact ht) h'
      have hl : pre.length + (cur ++ [t]).length = pre.length + cur.length + 1 := by
        simp; omega
      rw [hl] at hrec
      simp only [parseLoop, if_neg ht]
      exact hrec

/-- On a token list with an empty group, that is one that begins with the
delimiter or has two delimiters in a row, `ParseArgs` aborts in the slice
expression `args[start+1 : i]`. -/
theorem ParseArgs_aborts (args : List String) (h : ¬ NoEmptyGroup args) :
    ParseArgs args = none := by
  have hcond : ((([] : List String) = [] ∧ args.head? = some delim) ∨
      ∃ i, i < args.length ∧ args.get? i = some delim ∧
        args.get? (i + 1) = some delim) := by
    by_cases hh : args.head? = some delim
    · exact Or.inl ⟨rfl, hh⟩
    · right
      unfold NoEmptyGroup at h
      push_neg at h
      obtain ⟨i, h1, h2, h3⟩ := h hh
      exact ⟨i, h1, h2, h3⟩
  have := parseLoop_aborts args args [] [] [] (by simp) (by simp) hcond
  simp only [List.length_nil, Nat.add_zero] at this
  simp [ParseArgs, this]

/-- The step parser returns exactly on the token lists without an empty
group. -/
theorem ParseArgs_isSome_iff (args : List String) :
    (ParseArgs args).isSome = true ↔ NoEmptyGroup args := by
  constructor
  · intro h
    by_contra hn
    rw [ParseArgs_aborts args hn] at h
    simp at h
  · intro h
    rw [ParseArgs_eq_runs args h]
    rfl

/-- C5, on the code.  A delimiter as the very first token, or directly after
another delimiter, makes `ParseArgs` abort on `args[start+1 : i]` with
`start = i`; no step with an empty command is produced. -/
theorem ParseArgs_empty_group_aborts :
    ParseArgs [";;"] = none ∧
    goIndex [";;"] 0 = some ";;" ∧ goSlice [";;"] (0 + 1) 0 = none ∧
    ParseArgs ["a", ";;", ";;"] = none := by
  decide

/-- C4, on the code.  The list `;; a` contains one delimiter and does not end
with it, and the list `a ;; ;; b` contains two; `ParseArgs` produces no steps
for them, it aborts. -/
theorem ParseArgs_count_aborts :
    List.count delim [";;", "a"] = 1 ∧ ParseArgs [";;", "a"] = none ∧
    List.count delim ["a", ";;", ";;", "b"] = 2 ∧ ParseArgs ["a", ";;", ";;", "b"] = none := by
  decide

/-! ## Cancellation -/

theorem Started_new (procs : List Process) : (Pipeline.new procs).Started := by
  intro cmd h
  simp [Pipeline.new] at h

theorem Started_runStep (env : Env) (pipe : Pipeline) (h : pipe.Started) :
    (Pipeline.runStep env pipe).Started := by
  unfold Pipeline.runStep
  split
  · split
    · exact h
    · rename_i i proc hproc
      split
      · exact h
      · simp only [Pipeline.start, Pipeline.publish]
        split
        · intro cmd hc
          simp only [Option.some.injEq] at hc
          subst hc
          exact ⟨rfl, by simp, rfl, hproc⟩
        · intro cmd hc
          simp at hc
  · intro cmd hc
    obtain ⟨h1, h2, h3⟩ := h cmd hc
    exact ⟨h1, List.mem_append_left _ h2, h3⟩
  · split
    · intro cmd hc
      obtain ⟨h1, h2, h3⟩ := h cmd hc
      exact ⟨h1, List.mem_append_left _ h2, h3⟩
    · intro cmd hc
      obtain ⟨h1, h2, h3⟩ := h cmd hc
      exact ⟨h1, List.mem_append_left _ h2, h3⟩
  · intro cmd hc
    obtain ⟨h1, h2, h3⟩ := h cmd hc
    exact ⟨h1, List.mem_append_left _ h2, h3⟩
  · exact h

theorem Kill_of_none (pipe : Pipeline) (h : pipe.active = none) :
    Pipeline.Kill pipe = some { pipe with killed := true } := by
  simp [Pipeline.Kill, h]

theorem Kill_of_started (pipe : Pipeline) (cmd : Cmd) (h : pipe.active = some cmd)
    (hp : cmd.Process = true) :
    Pipeline.Kill pipe = some { pipe with
      log := pipe.log ++ [Event.kill pipe.proc.String, Event.osKill cmd.step]
      active := none
      killed := true } := by
  simp [Pipeline.Kill, h, hp]

/-- Between `exec.Command` and `Start`, inside the guarded section, the
published command has no process yet: a `Kill` that could run there would
dereference nil.  The lock is what keeps `Kill` out. -/
theorem Kill_inside_guarded_section (i : Nat) (proc : Process) (pipe : Pipeline) :
    Pipeline.Kill (Pipeline.publish i proc pipe) = none := by
  simp [Pipeline.Kill, Pipeline.publish]

theorem Started_Kill (pipe : Pipeline) (h : pipe.Started) :
    ∃ pipe', Pipeline.Kill pipe = some pipe' ∧ pipe'.Started ∧ pipe'.active = none ∧
      pipe'.killed = true := by
  cases hact : pipe.active with
  | none =>
    refine ⟨_, Kill_of_none pipe hact, ?_, hact, rfl⟩
    intro cmd hc
    simp [hact] at hc
  | some cmd =>
    refine ⟨_, Kill_of_started pipe cmd hact (h cmd hact).1, ?_, rfl, rfl⟩
    intro cmd' hc
    simp at hc

theorem Started_exec (env : Env) (acts : List Action) :
    ∀ pipe : Pipeline, pipe.Started →
      ∃ pipe', Pipeline.exec env acts pipe = some pipe' ∧ pipe'.Started := by
  induction acts with
  | nil => intro pipe h; exact ⟨pipe, rfl, h⟩
  | cons a acts ih =>
    intro pipe h
    cases a with
    | run =>
      obtain ⟨p', h1, h2⟩ := ih _ (Started_runStep env pipe h)
      exact ⟨p', by simpa [Pipeline.exec, Pipeline.step] using h1, h2⟩
    | kill =>
      obtain ⟨p1, hk, hs, _, _⟩ := Started_Kill pipe h
      obtain ⟨p', h1, h2⟩ := ih _ hs
      exact ⟨p', by simpa [Pipeline.exec, Pipeline.step, hk] using h1, h2⟩

/-- C10.  With the guarded sections of `Run` and the body of `Kill` taken as
atomic transitions, no interleaving aborts, and in the state it leads to a
published command has a process that was started successfully (its creation is
in the log), so that `Kill` does not dereference a missing process there. -/
theorem published_handle_started (procs : List Process) (env : Env) (acts : List Action) :
    ∃ pipe, Pipeline.exec env acts (Pipeline.new procs) = some pipe ∧
      (∀ cmd, pipe.active = some cmd →
        cmd.Process = true ∧ Event.osStart cmd.step ∈ pipe.log) ∧
      (Pipeline.Kill pipe).isSome = true := by
  obtain ⟨pipe, h1, h2⟩ := Started_exec env acts _ (Started_new procs)
  refine ⟨pipe, h1, fun cmd hc => ⟨(h2 cmd hc).1, (h2 cmd hc).2.1⟩, ?_⟩
  obtain ⟨p', hk, _⟩ := Started_Kill pipe h2
  simp [hk]

/-- C7.  A second `Kill` right after a first one changes nothing: it returns
the state the first one left, log included, so it prints no notice and makes
no termination request. -/
theorem Kill_idempotent (pipe : Pipeline) :
    (Pipeline.Kill pipe).bind Pipeline.Kill = Pipeline.Kill pipe ∧
      ∀ pipe', Pipeline.Kill pipe = some pipe' →
        Pipeline.Kill pipe' = some pipe' := by
  have key : ∀ pipe', Pipeline.Kill pipe = some pipe' → Pipeline.Kill pipe' = some pipe' := by
    intro pipe' h
    unfold Pipeline.Kill at h
    split at h
    · split at h
      · simp only [Option.some.injEq] at h
        subst h
        simp [Pipeline.Kill]
      · simp at h
    · rename_i hact
      simp only [Option.some.injEq] at h
      subst h
      simp [Pipeline.Kill, hact]
  refine ⟨?_, key⟩
  cases h : Pipeline.Kill pipe with
  | none => rfl
  | some pipe' => simpa using key pipe' h

theorem killed_runStep (env : Env) (pipe : Pipeline) (h : pipe.killed = true) :
    (Pipeline.runStep env pipe).killed = true ∧
      ∃ evs, (Pipeline.runStep env pipe).log = pipe.log ++ evs ∧ ∀ e ∈ evs, e.isStart = false := by
  unfold Pipeline.runStep
  split
  · split
    · exact ⟨h, [], by simp, by simp⟩
    · rw [if_pos h]
      exact ⟨h, [], by simp, by simp⟩
  · exact ⟨h, _, rfl, by simp [Event.isStart]⟩
  · split
    · exact ⟨h, _, rfl, by simp [Event.isStart]⟩
    · exact ⟨h, _, rfl, by simp [Event.isStart]⟩
  · exact ⟨h, _, rfl, by simp [Event.isStart]⟩
  · exact ⟨h, [], by simp, by simp⟩

theorem killed_Kill (pipe pipe' : Pipeline) (h : Pipeline.Kill pipe = some pipe') :
    pipe'.killed = true ∧
      ∃ evs, pipe'.log = pipe.log ++ evs ∧ ∀ e ∈ evs, e.isStart = false := by
  unfold Pipeline.Kill at h
  split at h
  · split at h
    · simp only [Option.some.injEq] at h
      subst h
      exact ⟨rfl, _, rfl, by simp [Event.isStart]⟩
    · simp at h
  · simp only [Option.some.injEq] at h
    subst h
    exact ⟨rfl, [], by simp, by simp⟩

theorem killed_exec (env : Env) (acts : List Action) :
    ∀ pipe : Pipeline, pipe.Started → pipe.killed = true →
      ∃ pipe' evs, Pipeline.exec env acts pipe = some pipe' ∧ pipe'.killed = true ∧
        pipe'.log = pipe.log ++ evs ∧ ∀ e ∈ evs, e.isStart = false := by
  induction acts with
  | nil => intro pipe _ hk; exact ⟨pipe, [], rfl, hk, by simp, by simp⟩
  | cons a acts ih =>
    intro pipe hs hk
    cases a with
    | run =>
      obtain ⟨hk1, evs1, hl1, hn1⟩ := killed_runStep env pipe hk
      obtain ⟨p', evs, he, hk', hl, hn⟩ := ih _ (Started_runStep env pipe hs) hk1
      refine ⟨p', evs1 ++ evs, by simpa [Pipeline.exec, Pipeline.step] using he, hk', ?_, ?_⟩
      · rw [hl, hl1, List.append_assoc]
      · intro e he'
        rcases List.mem_append.mp he' with h' | h'
        · exact hn1 e h'
        · exact hn e h'
    | kill =>
      obtain ⟨p1, hkill, hs1, _, _⟩ := Started_Kill pipe hs
      obtain ⟨hk1, evs1, hl1, hn1⟩ := killed_Kill pipe p1 hkill
      obtain ⟨p', evs, he, hk', hl, hn⟩ := ih _ hs1 hk1
      refine ⟨p', evs1 ++ evs, by simpa [Pipeline.exec, Pipeline.step, hkill] using he, hk', ?_, ?_⟩
      · rw [hl, hl1, List.append_assoc]
      · intro e he'
        rcases List.mem_append.mp he' with h' | h'
        · exact hn1 e h'
        · exact hn e h'

theorem Kill_idempotent_witness :
    Pipeline.Kill sleeping =
      some { sleeping with
        log := sleeping.log ++ [Event.kill "sleep 9", Event.osKill 0]
        active := none
        killed := true } ∧
    Pipeline.Kill { sleeping with
        log := sleeping.log ++ [Event.kill "sleep 9", Event.osKill 0]
        active := none
        killed := true } =
      some { sleeping with
        log := sleeping.log ++ [Event.kill "sleep 9", Event.osKill 0]
        active := none
        killed := true } :=
  ⟨by decide, (Kill_idempotent sleeping).2 _ (by decide)⟩

/-- C2.  In a state reached by some interleaving in which the command of step
`K` is the published one, the process of step `K` has been started, `Kill`
prints its notice and requests the termination of that process, and whatever
`Run` and further calls of `Kill` do afterwards, the flag `killed` stays set
and no step is started: neither a notice that a step runs nor the creation of
a process is logged any more. -/
theorem Kill_while_active (procs : List Process) (env : Env) (acts₀ : List Action)
    (pipe : Pipeline) (cmd : Cmd) (K : Nat)
    (hreach : Pipeline.exec env acts₀ (Pipeline.new procs) = some pipe)
    (hact : pipe.active = some cmd) (hK : cmd.step = K) :
    Event.osStart K ∈ pipe.log ∧
    ∃ pipe₁, Pipeline.Kill pipe = some pipe₁ ∧
      pipe₁.log = pipe.log ++ [Event.kill pipe.proc.String, Event.osKill K] ∧
      pipe₁.killed = true ∧
      ∀ acts, ∃ pipe₂ evs, Pipeline.exec env acts pipe₁ = some pipe₂ ∧
        pipe₂.killed = true ∧ pipe₂.log = pipe₁.log ++ evs ∧ ∀ e ∈ evs, e.isStart = false := by
  obtain ⟨p, hp, hs⟩ := Started_exec env acts₀ _ (Started_new procs)
  rw [hreach] at hp
  simp only [Option.some.injEq] at hp
  subst hp
  obtain ⟨h1, h2, _⟩ := hs cmd hact
  subst hK
  refine ⟨h2, _, Kill_of_started pipe cmd hact h1, rfl, rfl, ?_⟩
  intro acts
  have hs1 : Pipeline.Started { pipe with
      log := pipe.log ++ [Event.kill pipe.proc.String, Event.osKill cmd.step]
      active := none
      killed := true } := by
    intro c hc
    simp at hc
  exact killed_exec env acts _ hs1 rfl

theorem Kill_while_active_witness :
    Event.osStart 0 ∈ sleeping.log ∧
    ∃ pipe₁, Pipeline.Kill sleeping = some pipe₁ ∧
      pipe₁.log = sleeping.log ++ [Event.kill sleeping.proc.String, Event.osKill 0] ∧
      pipe₁.killed = true ∧
      ∀ acts, ∃ pipe₂ evs, Pipeline.exec allOk acts pipe₁ = some pipe₂ ∧
        pipe₂.killed = true ∧ pipe₂.log = pipe₁.log ++ evs ∧ ∀ e ∈ evs, e.isStart = false :=
  Kill_while_active [{ Cmd := "sleep", Args := ["9"] }, { Cmd := "true", Args := [] }] allOk
    [Action.run] sleeping { step := 0, spec := { Cmd := "sleep", Args := ["9"] }, Process := true } 0
    (by decide) (by decide) rfl

/-- C6, on the code.  After `Run` has returned from the pipeline over the
single step `true`, whose process exited successfully, the command is still
published, and `Kill` prints its notice and calls `Process.Kill()`. -/
theorem Kill_after_Run_returned :
    finished.pc = PC.returned ∧
    finished.log = [Event.run 0 "true ", Event.osStart 0, Event.exited 0 true,
      Event.done 0 "true "] ∧
    finished.active = some { step := 0, spec := { Cmd := "true", Args := [] }, Process := true } ∧
    (Pipeline.Kill finished).map (fun p => p.log) =
      some (finished.log ++ [Event.kill "true ", Event.osKill 0]) := by
  decide

/-! ## Execution -/

theorem runStep_returned (env : Env) (pipe : Pipeline) (h : pipe.pc = PC.returned) :
    Pipeline.runStep env pipe = pipe := by
  simp [Pipeline.runStep, h]

theorem iterate_returned (env : Env) (n : Nat) (pipe : Pipeline) (h : pipe.pc = PC.returned) :
    (Pipeline.runStep env)^[n] pipe = pipe :=
  Function.iterate_fixed (runStep_returned env pipe h) n

theorem runStep_start_fails (env : Env) (pipe : Pipeline) (K : Nat) (proc : Process)
    (hpc : pipe.pc = PC.loop K) (hk : pipe.killed = false)
    (hproc : pipe.Processes.get? K = some proc) (hfail : env.startOk K = false) :
    Pipeline.runStep env pipe =
      { pipe with
        proc := proc, active := none, killed := true, pc := PC.failed K
        log := pipe.log ++ [Event.run K proc.String] } := by
  unfold Pipeline.runStep
  simp only [hpc, hproc, hk, Pipeline.start, Pipeline.publish, hfail]
  simp

theorem runStep_Processes (env : Env) (pipe : Pipeline) :
    (Pipeline.runStep env pipe).Processes = pipe.Processes := by
  unfold Pipeline.runStep
  split
  · split
    · rfl
    · split
      · rfl
      · simp only [Pipeline.start, Pipeline.publish]
        split <;> rfl
  · rfl
  · split <;> rfl
  · rfl
  · rfl

theorem three_steps (env : Env) (pipe : Pipeline) (i : Nat) (hpc : pipe.pc = PC.loop i) :
    ((Pipeline.runStep env)^[3] pipe).Processes = pipe.Processes ∧
      (((Pipeline.runStep env)^[3] pipe).pc = PC.returned ∨
        (((Pipeline.runStep env)^[3] pipe).pc = PC.loop (i + 1) ∧ i < pipe.Processes.length)) := by
  show (Pipeline.runStep env (Pipeline.runStep env (Pipeline.runStep env pipe))).Processes = _ ∧
    ((Pipeline.runStep env (Pipeline.runStep env (Pipeline.runStep env pipe))).pc = _ ∨
      ((Pipeline.runStep env (Pipeline.runStep env (Pipeline.runStep env pipe))).pc = _ ∧ _))
  refine ⟨by simp only [runStep_Processes], ?_⟩
  cases hproc : pipe.Processes.get? i with
  | none =>
    have h1 : Pipeline.runStep env pipe = { pipe with pc := PC.returned } := by
      unfold Pipeline.runStep
      simp only [hpc, hproc]
    left
    rw [h1, runStep_returned env _ rfl, runStep_returned env _ rfl]
  | some proc =>
    have hi : i < pipe.Processes.length := by
      by_contra hlt
      have hnone : pipe.Processes.get? i = none := by
        simp only [List.get?_eq_getElem?]
        exact List.getElem?_eq_none (by omega)
      rw [hnone] at hproc
      exact absurd hproc (by simp)
    cases hk : pipe.killed with
    | true =>
      have h1 : Pipeline.runStep env pipe = { pipe with pc := PC.returned } := by
        unfold Pipeline.runStep
        simp only [hpc, hproc, hk, if_true]
      left
      rw [h1, runStep_returned env _ rfl, runStep_returned env _ rfl]
    | false =>
      cases hs : env.startOk i with
      | false =>
        left
        rw [runStep_start_fails env pipe i proc hpc hk hproc hs]
        simp [Pipeline.runStep]
      | true =>
        have h1 : Pipeline.runStep env pipe =
            { pipe with
              proc := proc, active := some { step := i, spec := proc, Process := true }
              pc := PC.waiting i proc
              log := pipe.log ++ [Event.run i proc.String] ++ [Event.osStart i] } := by
          unfold Pipeline.runStep
          simp only [hpc, hproc, hk, Pipeline.start, Pipeline.publish, hs]
          simp
        rw [h1]
        cases he : env.exitOk i with
        | false => left; simp [Pipeline.runStep, he]
        | true => right; exact ⟨by simp [Pipeline.runStep, he], hi⟩

theorem returns_from_loop (env : Env) (m : Nat) :
    ∀ (pipe : Pipeline) (i : Nat), pipe.pc = PC.loop i → pipe.Processes.length ≤ i + m →
      ((Pipeline.runStep env)^[3 * m + 1] pipe).pc = PC.returned := by
  induction m with
  | zero =>
    intro pipe i hpc hlen
    have hnone : pipe.Processes.get? i = none := by
      simp only [List.get?_eq_getElem?]
      exact List.getElem?_eq_none (by omega)
    show (Pipeline.runStep env pipe).pc = _
    unfold Pipeline.runStep
    simp only [hpc, hnone]
  | succ m ih =>
    intro pipe i hpc hlen
    have hsplit : 3 * (m + 1) + 1 = (3 * m + 1) + 3 := by omega
    rw [hsplit, Function.iterate_add_apply]
    obtain ⟨hP, h | ⟨h, _⟩⟩ := three_steps env pipe i hpc
    · rw [iterate_returned env _ _ h]; exact h
    · exact ih _ (i + 1) h (by rw [hP]; omega)

/-- Left alone, `Run` returns, whatever the operating system decides. -/
theorem Run_returns (env : Env) (procs : List Process) :
    (Pipeline.Run env (Pipeline.new procs)).pc = PC.returned :=
  returns_from_loop env procs.length (Pipeline.new procs) 0 rfl (by simp [Pipeline.new])

theorem failed_exec (env : Env) (K : Nat) (base : List Event) (acts : List Action) :
    ∀ pipe : Pipeline, pipe.active = none → pipe.killed = true →
      (pipe.pc = PC.failed K ∧ pipe.log = base ∨
        pipe.pc = PC.returned ∧ pipe.log = base ++ [Event.fail K]) →
      ∃ pipe', Pipeline.exec env acts pipe = some pipe' ∧ pipe'.active = none ∧
        pipe'.killed = true ∧
        (pipe'.pc = PC.failed K ∧ pipe'.log = base ∨
          pipe'.pc = PC.returned ∧ pipe'.log = base ++ [Event.fail K]) := by
  induction acts with
  | nil => intro pipe ha hk h; exact ⟨pipe, rfl, ha, hk, h⟩
  | cons a acts ih =>
    intro pipe ha hk h
    cases a with
    | run =>
      have hstep : ∃ p, Pipeline.runStep env pipe = p ∧ p.active = none ∧ p.killed = true ∧
          p.pc = PC.returned ∧ p.log = base ++ [Event.fail K] := by
        rcases h with ⟨hpc, hl⟩ | ⟨hpc, hl⟩
        · exact ⟨_, rfl, by simp [Pipeline.runStep, hpc, ha], by simp [Pipeline.runStep, hpc, hk],
            by simp [Pipeline.runStep, hpc], by simp [Pipeline.runStep, hpc, hl]⟩
        · rw [runStep_returned env pipe hpc]
          exact ⟨_, rfl, ha, hk, hpc, hl⟩
      obtain ⟨p, hp, ha1, hk1, hpc1, hl1⟩ := hstep
      obtain ⟨p', he, r⟩ := ih p ha1 hk1 (Or.inr ⟨hpc1, hl1⟩)
      exact ⟨p', by simpa [Pipeline.exec, Pipeline.step, hp] using he, r⟩
    | kill =>
      have hkill : Pipeline.Kill pipe = some pipe := by
        rw [Kill_of_none pipe ha]
        cases pipe
        simp_all
      obtain ⟨p', he, r⟩ := ih pipe ha hk h
      exact ⟨p', by simpa [Pipeline.exec, Pipeline.step, hkill] using he, r⟩

/-- C8.  When `Run` reaches step `K` with `killed` unset and `Start` fails,
the guarded section leaves no published command and `killed` set, having
printed only the notice that the step runs.  Left alone, `Run` then prints the
failure notice and returns.  And under any interleaving with calls of `Kill`,
nothing but that failure notice is ever added to the log: no notice of
completion, no later step. -/
theorem start_failure (env : Env) (pipe : Pipeline) (K : Nat) (proc : Process)
    (hpc : pipe.pc = PC.loop K) (hk : pipe.killed = false)
    (hproc : pipe.Processes.get? K = some proc) (hfail : env.startOk K = false) :
    Pipeline.runStep env pipe =
      { pipe with
        proc := proc, active := none, killed := true, pc := PC.failed K
        log := pipe.log ++ [Event.run K proc.String] } ∧
    Pipeline.Run env pipe =
      { pipe with
        proc := proc, active := none, killed := true, pc := PC.returned
        log := pipe.log ++ [Event.run K proc.String, Event.fail K] } ∧
    ∀ acts, ∃ pipe', Pipeline.exec env acts (Pipeline.runStep env pipe) = some pipe' ∧
      pipe'.active = none ∧ pipe'.killed = true ∧
      (pipe'.pc = PC.failed K ∧ pipe'.log = pipe.log ++ [Event.run K proc.String] ∨
        pipe'.pc = PC.returned ∧
          pipe'.log = pipe.log ++ [Event.run K proc.String] ++ [Event.fail K]) := by
  have h1 := runStep_start_fails env pipe K proc hpc hk hproc hfail
  refine ⟨h1, ?_, ?_⟩
  · have hlen : 3 * pipe.Processes.length + 1 = (3 * pipe.Processes.length - 1) + 2 := by
      have : K < pipe.Processes.length := by
        by_contra hlt
        have hnone : pipe.Processes.get? K = none := by
          simp only [List.get?_eq_getElem?]
          exact List.getElem?_eq_none (by omega)
        rw [hnone] at hproc
        exact absurd hproc (by simp)
      omega
    rw [Pipeline.Run, hlen, Function.iterate_add_apply]
    have h2 : (Pipeline.runStep env)^[2] pipe =
        { pipe with
          proc := proc, active := none, killed := true, pc := PC.returned
          log := pipe.log ++ [Event.run K proc.String, Event.fail K] } := by
      show Pipeline.runStep env (Pipeline.runStep env pipe) = _
      rw [h1]
      simp [Pipeline.runStep]
    rw [h2]
    exact iterate_returned env _ _ rfl
  · intro acts
    rw [h1]
    exact failed_exec env K _ acts _ rfl rfl (Or.inl ⟨rfl, rfl⟩)

theorem start_failure_witness :
    Pipeline.Run noStart (Pipeline.new scenarioProcs) =
      { Pipeline.new scenarioProcs with
        proc := { Cmd := "true", Args := [] }, active := none, killed := true, pc := PC.returned
        log := [] ++ [Event.run 0 "true ", Event.fail 0] } :=
  (start_failure noStart (Pipeline.new scenarioProcs) 0 { Cmd := "true", Args := [] }
    rfl rfl rfl rfl).2.1

theorem iteration_succeeds (env : Env) (pipe : Pipeline) (i : Nat) (proc : Process)
    (hpc : pipe.pc = PC.loop i) (hk : pipe.killed = false)
    (hproc : pipe.Processes.get? i = some proc)
    (hstart : env.startOk i = true) (hexit : env.exitOk i = true) :
    (Pipeline.runStep env)^[3] pipe =
      { pipe with
        proc := proc, active := some { step := i, spec := proc, Process := true }
        pc := PC.loop (i + 1), log := pipe.log ++ iterationOk i proc } := by
  have h1 : Pipeline.runStep env pipe =
      { pipe with
        proc := proc, active := some { step := i, spec := proc, Process := true }
        pc := PC.waiting i proc
        log := pipe.log ++ [Event.run i proc.String] ++ [Event.osStart i] } := by
    unfold Pipeline.runStep
    simp only [hpc, hproc, hk, Pipeline.start, Pipeline.publish, hstart]
    simp
  show Pipeline.runStep env (Pipeline.runStep env (Pipeline.runStep env pipe)) = _
  rw [h1]
  simp [Pipeline.runStep, hexit, iterationOk]

theorem iteration_exit_fails (env : Env) (pipe : Pipeline) (i : Nat) (proc : Process)
    (hpc : pipe.pc = PC.loop i) (hk : pipe.killed = false)
    (hproc : pipe.Processes.get? i = some proc)
    (hstart : env.startOk i = true) (hexit : env.exitOk i = false) :
    (Pipeline.runStep env)^[2] pipe =
      { pipe with
        proc := proc, active := some { step := i, spec := proc, Process := true }
        pc := PC.returned, log := pipe.log ++ iterationExitFail i proc } := by
  have h1 : Pipeline.runStep env pipe =
      { pipe with
        proc := proc, active := some { step := i, spec := proc, Process := true }
        pc := PC.waiting i proc
        log := pipe.log ++ [Event.run i proc.String] ++ [Event.osStart i] } := by
    unfold Pipeline.runStep
    simp only [hpc, hproc, hk, Pipeline.start, Pipeline.publish, hstart]
    simp
  show Pipeline.runStep env (Pipeline.runStep env pipe) = _
  rw [h1]
  simp [Pipeline.runStep, hexit, iterationExitFail]

theorem get?_getD (procs : List Process) (i : Nat) (h : i < procs.length) :
    procs.get? i = some (procs.getD i Process.zero) := by
  simp [List.getD, List.getElem?_eq_getElem h]

theorem run_prefix (procs : List Process) (env : Env)
    (hstart : ∀ i < procs.length, env.startOk i = true) :
    ∀ k, k ≤ procs.length → (∀ i < k, env.exitOk i = true) →
      ∃ pipe, (Pipeline.runStep env)^[3 * k] (Pipeline.new procs) = pipe ∧
        pipe.pc = PC.loop k ∧ pipe.killed = false ∧ pipe.Processes = procs ∧
        pipe.log = (List.range k).flatMap (fun i => iterationOk i (procs.getD i Process.zero)) := by
  intro k
  induction k with
  | zero => intro _ _; exact ⟨_, rfl, rfl, rfl, rfl, rfl⟩
  | succ k ih =>
    intro hk hok
    obtain ⟨pipe, hp, hpc, hkl, hps, hlog⟩ := ih (by omega) (fun i hi => hok i (by omega))
    have hsplit : 3 * (k + 1) = 3 + 3 * k := by omega
    have hit := iteration_succeeds env pipe k (procs.getD k Process.zero) hpc hkl
      (by rw [hps]; exact get?_getD procs k (by omega)) (hstart k (by omega)) (hok k (by omega))
    refine ⟨_, rfl, ?_, ?_, ?_, ?_⟩ <;>
      rw [hsplit, Function.iterate_add_apply, hp, hit]
    · exact hkl
    · exact hps
    · simp [List.range_succ, hlog]

theorem Run_log (procs : List Process) (env : Env) (K : Nat)
    (hstart : ∀ i < procs.length, env.startOk i = true)
    (hK : K ≤ procs.length) (hok : ∀ i < K, env.exitOk i = true)
    (hfail : K < procs.length → env.exitOk K = false) :
    (Pipeline.Run env (Pipeline.new procs)).pc = PC.returned ∧
      (Pipeline.Run env (Pipeline.new procs)).killed = false ∧
      (Pipeline.Run env (Pipeline.new procs)).log = expectedLog procs K := by
  obtain ⟨pipe, hp, hpc, hkl, hps, hlog⟩ := run_prefix procs env hstart K hK hok
  have hN : (Pipeline.new procs).Processes.length = procs.length := rfl
  by_cases hlt : K < procs.length
  · have hsplit : 3 * procs.length + 1 = (3 * procs.length + 1 - 3 * K - 2) + (2 + 3 * K) := by
      omega
    have hit := iteration_exit_fails env pipe K (procs.getD K Process.zero) hpc hkl
      (by rw [hps]; exact get?_getD procs K hlt) (hstart K hlt) (hfail hlt)
    have hrun : Pipeline.Run env (Pipeline.new procs) =
        { pipe with
          proc := procs.getD K Process.zero
          active := some { step := K, spec := procs.getD K Process.zero, Process := true }
          pc := PC.returned
          log := pipe.log ++ iterationExitFail K (procs.getD K Process.zero) } := by
      rw [Pipeline.Run, hN, hsplit, Function.iterate_add_apply, Function.iterate_add_apply, hp,
        hit]
      exact iterate_returned env _ _ rfl
    rw [hrun]
    exact ⟨rfl, hkl, by simp [expectedLog, hlt, hlog]⟩
  · have hKN : K = procs.length := by omega
    have hsplit : 3 * procs.length + 1 = 1 + 3 * K := by omega
    have hnone : pipe.Processes.get? K = none := by
      rw [hps]
      simp only [List.get?_eq_getElem?]
      exact List.getElem?_eq_none (by omega)
    have hlast : Pipeline.runStep env pipe = { pipe with pc := PC.returned } := by
      unfold Pipeline.runStep
      simp only [hpc, hnone]
    have hrun : Pipeline.Run env (Pipeline.new procs) = { pipe with pc := PC.returned } := by
      rw [Pipeline.Run, hN, hsplit, Function.iterate_add_apply, hp]
      exact hlast
    rw [hrun]
    exact ⟨rfl, hkl, by simp [expectedLog, hlt, hlog]⟩

theorem osStart_mem_expectedLog (procs : List Process) (k j : Nat) :
    Event.osStart j ∈ expectedLog procs k ↔ j < k ∨ (j = k ∧ k < procs.length) := by
  by_cases h : k < procs.length <;>
    simp [expectedLog, iterationOk, iterationExitFail, List.mem_flatMap, h]

theorem run_mem_expectedLog (procs : List Process) (k j : Nat) (t : String) :
    Event.run j t ∈ expectedLog procs k ↔
      (j < k ∨ (j = k ∧ k < procs.length)) ∧ t = (procs.getD j Process.zero).String := by
  by_cases h : k < procs.length
  · rw [expectedLog, if_pos h]
    simp only [iterationOk, iterationExitFail, List.mem_flatMap, List.mem_append,
      List.mem_range]
    constructor
    · rintro (⟨a, ha, hm⟩ | hm)
      · simp at hm
        obtain ⟨rfl, rfl⟩ := hm
        exact ⟨Or.inl ha, by simp⟩
      · simp at hm
        obtain ⟨rfl, rfl⟩ := hm
        exact ⟨Or.inr ⟨rfl, h⟩, by simp⟩
    · rintro ⟨hj | ⟨rfl, _⟩, rfl⟩
      · exact Or.inl ⟨j, hj, by simp⟩
      · exact Or.inr (by simp)
  · rw [expectedLog, if_neg h]
    simp only [iterationOk, List.mem_flatMap, List.append_nil, List.mem_range]
    constructor
    · rintro ⟨a, ha, hm⟩
      simp at hm
      obtain ⟨rfl, rfl⟩ := hm
      exact ⟨Or.inl ha, by simp⟩
    · rintro ⟨hj | ⟨_, hk⟩, rfl⟩
      · exact ⟨j, hj, by simp⟩
      · exact absurd hk h

theorem done_mem_expectedLog (procs : List Process) (k j : Nat) (t : String) :
    Event.done j t ∈ expectedLog procs k ↔
      j < k ∧ t = (procs.getD j Process.zero).String := by
  have hfailEv : Event.done j t ∉
      (if k < procs.length then iterationExitFail k (procs.getD k Process.zero) else []) := by
    split <;> simp [iterationExitFail]
  simp only [expectedLog, iterationOk, List.mem_flatMap, List.mem_append, List.mem_range,
    hfailEv, or_false]
  constructor
  · rintro ⟨a, ha, hm⟩
    simp at hm
    obtain ⟨rfl, rfl⟩ := hm
    exact ⟨ha, by simp⟩
  · rintro ⟨hj, rfl⟩
    exact ⟨j, hj, by simp⟩

/-- C1.  Without `Kill` and with every `Start` succeeding, let the steps
before `K` exit successfully and step `K`, if `K` is a step at all, exit with
a failure indication.  Then `Run` returns and its log is, in this order, for
each step before `K` its notice, the creation of its process, its successful
exit and its notice of completion, followed for step `K` by its notice, the
creation of its process and its failed exit.  So exactly the steps up to `K`
are started, exactly the steps before `K` get a notice of completion, and no
notice is printed for a later step. -/
theorem Run_sequential (procs : List Process) (env : Env) (K : Nat)
    (hstart : ∀ i < procs.length, env.startOk i = true)
    (hK : K ≤ procs.length) (hok : ∀ i < K, env.exitOk i = true)
    (hfail : K < procs.length → env.exitOk K = false) :
    (Pipeline.Run env (Pipeline.new procs)).pc = PC.returned ∧
    (Pipeline.Run env (Pipeline.new procs)).log = expectedLog procs K ∧
    (∀ j, Event.osStart j ∈ (Pipeline.Run env (Pipeline.new procs)).log ↔
      j < K ∨ (j = K ∧ K < procs.length)) ∧
    (∀ j t, Event.run j t ∈ (Pipeline.Run env (Pipeline.new procs)).log ↔
      (j < K ∨ (j = K ∧ K < procs.length)) ∧ t = (procs.getD j Process.zero).String) ∧
    (∀ j t, Event.done j t ∈ (Pipeline.Run env (Pipeline.new procs)).log ↔
      j < K ∧ t = (procs.getD j Process.zero).String) := by
  obtain ⟨h1, _, h3⟩ := Run_log procs env K hstart hK hok hfail
  refine ⟨h1, h3, ?_, ?_, ?_⟩
  · intro j; rw [h3]; exact osStart_mem_expectedLog procs K j
  · intro j t; rw [h3]; exact run_mem_expectedLog procs K j t
  · intro j t; rw [h3]; exact done_mem_expectedLog procs K j t

theorem Run_sequential_witness :
    (Pipeline.Run scenarioEnv (Pipeline.new scenarioProcs)).pc = PC.returned ∧
    (Pipeline.Run scenarioEnv (Pipeline.new scenarioProcs)).log =
      [Event.run 0 "true ", Event.osStart 0, Event.exited 0 true, Event.done 0 "true ",
       Event.run 1 "exit 1", Event.osStart 1, Event.exited 1 false] ∧
    (∀ j t, Event.run j t ∈ (Pipeline.Run scenarioEnv (Pipeline.new scenarioProcs)).log ↔
      (j < 1 ∨ (j = 1 ∧ 1 < scenarioProcs.length)) ∧
        t = (scenarioProcs.getD j Process.zero).String) :=
  have h := Run_sequential scenarioProcs scenarioEnv 1 (fun _ _ => rfl) (by decide)
    (by decide) (fun _ => by decide)
  ⟨h.1, h.2.1.trans (by decide), h.2.2.2.1⟩

/-! ## Reaction loop -/

theorem After_init (procs : List Process) : System.After procs 0 (System.init procs) :=
  ⟨rfl, rfl, rfl, by simp [System.init], rfl⟩

theorem After_onChange (procs : List Process) (n : Nat) (sys : System)
    (h : System.After procs n sys) :
    ∃ sys', sys.onChange = some sys' ∧ System.After procs (n + 1) sys' := by
  obtain ⟨hprocs, hlen, hpipe, hall, hops⟩ := h
  by_cases hn : n = 0
  · subst hn
    refine ⟨sys.spawn, by simp [System.onChange, hpipe], ?_⟩
    have hnil : sys.pipes = [] := List.length_eq_zero.mp hlen
    refine ⟨hprocs, by simp [System.spawn, hlen], by simp [System.spawn, hlen], ?_, ?_⟩
    · intro p hp
      simp only [System.spawn, hnil, List.nil_append, List.mem_singleton] at hp
      subst hp
      exact ⟨Started_new _, hprocs⟩
    · simp [System.spawn, hops, hlen, hprocs, reaction, List.range_succ]
  · have hlt : n - 1 < sys.pipes.length := by omega
    have hget : sys.pipes.get? (n - 1) = some (sys.pipes.get ⟨n - 1, hlt⟩) := by
      simp [List.getElem?_eq_getElem hlt]
    have hmem : sys.pipes.get ⟨n - 1, hlt⟩ ∈ sys.pipes := List.get_mem _ _ _
    obtain ⟨p', hk, hs', _, _⟩ := Started_Kill _ (hall _ hmem).1
    have hP : p'.Processes = procs := by
      rw [← (hall _ hmem).2]
      unfold Pipeline.Kill at hk
      split at hk
      · split at hk
        · simp only [Option.some.injEq] at hk
          subst hk
          rfl
        · simp at hk
      · simp only [Option.some.injEq] at hk
        subst hk
        rfl
    have hon : sys.onChange = some (System.spawn { sys with
        pipes := sys.pipes.set (n - 1) p', ops := sys.ops ++ [MainOp.kill (n - 1)] }) := by
      simp only [System.onChange, hpipe, if_neg hn, hget, hk]
    refine ⟨_, hon, ?_⟩
    refine ⟨hprocs, by simp [System.spawn, hlen], ?_, ?_, ?_⟩
    · simp [System.spawn, hlen]
    · intro p hp
      simp only [System.spawn, List.mem_append, List.mem_singleton] at hp
      rcases hp with hp | hp
      · rcases List.mem_or_eq_of_mem_set hp with hp | hp
        · exact hall p hp
        · subst hp; exact ⟨hs', hP⟩
      · subst hp
        exact ⟨Started_new _, hprocs⟩
    · simp [System.spawn, hops, hlen, hprocs, reaction, hn, List.range_succ]

theorem After_run (procs : List Process) (envs : Nat → Env) (n id : Nat) (sys : System)
    (h : System.After procs n sys) :
    ∃ sys', System.step envs sys (SysAction.run id) = some sys' ∧ System.After procs n sys' := by
  obtain ⟨hprocs, hlen, hpipe, hall, hops⟩ := h
  cases hget : sys.pipes.get? id with
  | none => exact ⟨sys, by simp only [System.step, hget], hprocs, hlen, hpipe, hall, hops⟩
  | some p =>
    have hst : System.step envs sys (SysAction.run id) = some { sys with
        pipes := sys.pipes.set id (Pipeline.runStep (envs id) p) } := by
      simp only [System.step, hget]
    refine ⟨_, hst, hprocs, by simpa using hlen, hpipe, ?_, hops⟩
    intro q hq
    rcases List.mem_or_eq_of_mem_set hq with hq | hq
    · exact hall q hq
    · subst hq
      have hp := hall p (List.get?_mem hget)
      exact ⟨Started_runStep _ p hp.1, (runStep_Processes _ p).trans hp.2⟩

theorem After_exec (procs : List Process) (envs : Nat → Env) (acts : List SysAction) :
    ∀ (n : Nat) (sys : System), System.After procs n sys →
      ∃ sys', System.exec envs acts sys = some sys' ∧
        System.After procs (n + acts.count SysAction.change) sys' := by
  induction acts with
  | nil => intro n sys h; exact ⟨sys, rfl, by simpa using h⟩
  | cons a acts ih =>
    intro n sys h
    cases a with
    | change =>
      obtain ⟨s1, h1, h2⟩ := After_onChange procs n sys h
      obtain ⟨s2, h3, h4⟩ := ih (n + 1) s1 h2
      refine ⟨s2, by simpa [System.exec, System.step, h1] using h3, ?_⟩
      have : n + 1 + acts.count SysAction.change
          = n + (SysAction.change :: acts).count SysAction.change := by
        simp [List.count_cons]; omega
      rwa [← this]
    | run id =>
      obtain ⟨s1, h1, h2⟩ := After_run procs envs n id sys h
      obtain ⟨s2, h3, h4⟩ := ih n s1 h2
      refine ⟨s2, by simpa [System.exec, h1] using h3, ?_⟩
      have : acts.count SysAction.change
          = (SysAction.run id :: acts).count SysAction.change := by
        simp [List.count_cons]
      rwa [← this]

theorem reactions_count (procs : List Process) (n : Nat) :
    ((List.range n).flatMap (reaction procs)).countP MainOp.isKill = n - 1 ∧
      ((List.range n).flatMap (reaction procs)).countP MainOp.isSpawn = n := by
  induction n with
  | zero => simp
  | succ n ih =>
    obtain ⟨h1, h2⟩ := ih
    rw [List.range_succ, List.flatMap_append, List.countP_append, List.countP_append, h1, h2]
    by_cases hn : n = 0
    · subst hn; simp [reaction, MainOp.isKill, MainOp.isSpawn, List.countP_cons]
    · simp [reaction, hn, MainOp.isKill, MainOp.isSpawn, List.countP_cons]
      omega

/-- C9.  Whatever the goroutines of the pipelines do in between, a schedule
with `n` change notifications does not abort, and the reaction loop has then
done, for the notifications `0` to `n - 1` in order: a `Kill` of the pipeline
of the previous notification (none for the first), the line with the time, and
the allocation and asynchronous start of a new pipeline over the same steps.
That makes `n` pipelines and `n - 1` calls of `Kill`, the `Kill` of pipeline
`i` standing before the start of pipeline `i + 1`. -/
theorem reaction_loop_order (procs : List Process) (envs : Nat → Env)
    (acts : List SysAction) :
    ∃ sys, System.exec envs acts (System.init procs) = some sys ∧
      sys.ops = (List.range (acts.count SysAction.change)).flatMap (reaction procs) ∧
      sys.pipes.length = acts.count SysAction.change ∧
      sys.ops.countP MainOp.isSpawn = acts.count SysAction.change ∧
      sys.ops.countP MainOp.isKill = acts.count SysAction.change - 1 ∧
      (∀ p ∈ sys.pipes, p.Processes = procs) := by
  obtain ⟨sys, h1, h2⟩ := After_exec procs envs acts 0 _ (After_init procs)
  rw [Nat.zero_add] at h2
  obtain ⟨_, hlen, _, hall, hops⟩ := h2
  refine ⟨sys, h1, hops, hlen, ?_, ?_, fun p hp => (hall p hp).2⟩
  · rw [hops]; exact (reactions_count procs _).2
  · rw [hops]; exact (reactions_count procs _).1

end Watchrun
